import Mathlib

/-!
Verification of the commit-classification and aggregation pipeline of the
codetimemachine repository (src/lib/github-analysis.ts and the API route
handlers).  TypeScript functions are shallowly embedded as Lean functions:
JavaScript strings become `String`, JavaScript numbers used as counts become
`ℕ`, the float-valued complexity score becomes `ℝ` with `Real.log` standing
for `Math.log`, optional values become `Option`, and the external GitHub
calls become function parameters (`Option`-valued, `none` modelling a thrown
error).
-/

/-- Predicate `startsWithList p s`: true when `p` is a leading segment of `s`
(helper for the embedding of JavaScript `String.prototype.includes`). -/
def startsWithList : List Char → List Char → Bool
  | [], _ => true
  | _ :: _, [] => false
  | p :: ps, c :: cs => p == c && startsWithList ps cs

/-- Predicate `containsList p s`: true when `p` occurs as a contiguous run inside `s`. -/
def containsList (pat : List Char) : List Char → Bool
  | [] => startsWithList pat []
  | c :: cs => startsWithList pat (c :: cs) || containsList pat cs

/-- Embedding of JavaScript `s.toLowerCase()`: lower-case each character
(identical to the source's behaviour on the ASCII trigger words). -/
def jsToLower (s : String) : String :=
  String.mk (s.toList.map Char.toLower)

/-- Embedding of JavaScript `s.includes(pat)` for strings. -/
def jsIncludes (s pat : String) : Bool :=
  containsList pat.toList s.toList

/-- Embedding of `categorizeCommit` (src/lib/github-analysis.ts lines 23-53):
lower-case the message, then an if/else-if chain over substring tests. -/
def categorizeCommit (message : String) : String × String :=
  let msg := jsToLower message
  if jsIncludes msg "feat" || jsIncludes msg "feature" || jsIncludes msg "add" then
    ("feature", "enhancement")
  else if jsIncludes msg "fix" || jsIncludes msg "bug" then
    ("bugfix", "stability")
  else if jsIncludes msg "refactor" || jsIncludes msg "clean" then
    ("refactor", "technical debt")
  else if jsIncludes msg "test" || jsIncludes msg "spec" then
    ("testing", "quality")
  else if jsIncludes msg "doc" || jsIncludes msg "readme" then
    ("documentation", "usability")
  else if jsIncludes msg "perf" || jsIncludes msg "optimize" then
    ("performance", "performance")
  else if jsIncludes msg "security" || jsIncludes msg "auth" then
    ("security", "security")
  else
    ("other", "maintenance")

/-- Embedding of `extractBusinessFeature` (src/lib/github-analysis.ts
lines 55-77). -/
def extractBusinessFeature (message : String) : String :=
  let msg := jsToLower message
  if jsIncludes msg "auth" || jsIncludes msg "login" || jsIncludes msg "signup" then
    "Authentication"
  else if jsIncludes msg "user" || jsIncludes msg "profile" then
    "User Management"
  else if jsIncludes msg "api" || jsIncludes msg "endpoint" then
    "API Development"
  else if jsIncludes msg "ui" || jsIncludes msg "frontend" || jsIncludes msg "component" then
    "UI/UX"
  else if jsIncludes msg "database" || jsIncludes msg "db" || jsIncludes msg "migration" then
    "Database"
  else if jsIncludes msg "deploy" || jsIncludes msg "ci" || jsIncludes msg "build" then
    "DevOps"
  else if jsIncludes msg "test" || jsIncludes msg "spec" then
    "Testing"
  else if jsIncludes msg "doc" || jsIncludes msg "readme" then
    "Documentation"
  else
    "Core Development"

/-- First-match-wins evaluation of an ordered rule list, written from the
spec's words in §4.1: each rule is a trigger list with a result, and the
first rule one of whose triggers occurs in the message fires; otherwise the
default is returned. -/
def firstMatch {α : Type} (msg : String) : List (List String × α) → α → α
  | [], d => d
  | (ts, r) :: rest, d =>
      if ts.any (fun t => jsIncludes msg t) then r else firstMatch msg rest d

/-- The spec's fixed priority list of the eight classification rules
(rule 8 is the default and is the last argument of `firstMatch`). -/
def categorizeRules : List (List String × String × String) :=
  [(["feat", "feature", "add"], ("feature", "enhancement")),
   (["fix", "bug"], ("bugfix", "stability")),
   (["refactor", "clean"], ("refactor", "technical debt")),
   (["test", "spec"], ("testing", "quality")),
   (["doc", "readme"], ("documentation", "usability")),
   (["perf", "optimize"], ("performance", "performance")),
   (["security", "auth"], ("security", "security"))]

/-- Classification as literally described by the spec: first-match-wins over
the fixed rule list on the lower-cased message. -/
def specCategorize (message : String) : String × String :=
  firstMatch (jsToLower message) categorizeRules ("other", "maintenance")

/-- The spec's nine-rule feature-extraction list (rule 9 is the default). -/
def featureRules : List (List String × String) :=
  [(["auth", "login", "signup"], "Authentication"),
   (["user", "profile"], "User Management"),
   (["api", "endpoint"], "API Development"),
   (["ui", "frontend", "component"], "UI/UX"),
   (["database", "db", "migration"], "Database"),
   (["deploy", "ci", "build"], "DevOps"),
   (["test", "spec"], "Testing"),
   (["doc", "readme"], "Documentation")]

/-- Feature extraction as literally described by the spec. -/
def specExtractFeature (message : String) : String :=
  firstMatch (jsToLower message) featureRules "Core Development"

/-- Raw commit record as delivered by the GitHub list-commits API
(the fields of the TypeScript shape `{ sha, commit: { message, author?:
{ name?, date? } }, author?: { login? } }` that the pipeline reads). -/
structure RawCommit where
  sha : String
  message : String
  authorName : Option String
  authorDate : Option String
  login : Option String
deriving DecidableEq, Repr

/-- The slice of a GitHub per-commit detail response that the pipeline
reads: `files?.length`, `stats?.additions`, `stats?.deletions`. -/
structure CommitDetails where
  files : Option ℕ
  additions : Option ℕ
  deletions : Option ℕ
deriving DecidableEq, Repr

/-- Argument record of `calculateComplexity` (the TypeScript interface
`ComplexityStats` with optional numeric fields). -/
structure ComplexityStats where
  files : Option ℕ
  insertions : Option ℕ
  deletions : Option ℕ
deriving DecidableEq, Repr

/-- Embedding of the JavaScript string fallback idiom `a || b` for an
optional string `a`: both `undefined` and the empty string are falsy. -/
def jsStrOr : Option String → String → String
  | some s, d => if s = "" then d else s
  | none, d => d

/-- Embedding of `calculateComplexity` (src/lib/github-analysis.ts lines
85-91): `Math.min(100, Math.log(files + 1) * 10 +
Math.log(insertions + deletions + 1) * 5)` with missing signals defaulted
to 0 by `|| 0`. -/
noncomputable def calculateComplexity (stats : ComplexityStats) : ℝ :=
  let files := stats.files.getD 0
  let insertions := stats.insertions.getD 0
  let deletions := stats.deletions.getD 0
  min 100 (Real.log ((files : ℝ) + 1) * 10
    + Real.log ((insertions : ℝ) + (deletions : ℝ) + 1) * 5)

/-- The spec's scorer contract `score(filesChanged, insertions, deletions)`:
exactly how the pipeline invokes `calculateComplexity`
(`calculateComplexity({ files: filesChanged, insertions, deletions })`). -/
noncomputable def score (filesChanged insertions deletions : ℕ) : ℝ :=
  calculateComplexity ⟨some filesChanged, some insertions, some deletions⟩

/-- One analyzed commit (the TypeScript interface `CommitAnalysis`). -/
structure CommitAnalysis where
  hash : String
  date : String
  author : String
  message : String
  filesChanged : ℕ
  insertions : ℕ
  deletions : ℕ
  complexity : ℝ
  semanticCategory : String
  businessImpact : String

/-- The author-resolution chain of the pipeline:
`commit.commit.author?.name || commit.author?.login || "Unknown"`. -/
def authorOf (c : RawCommit) : String :=
  jsStrOr c.authorName (jsStrOr c.login "Unknown")

/-- The message-length estimation fallback of the Normalizer
(src/lib/github-analysis.ts lines 193-196 and 200-203):
`(max(1, ⌊len/50⌋), max(5, ⌊len/10⌋), max(0, ⌊len/20⌋))`. -/
def estimateStats (messageLength : ℕ) : ℕ × ℕ × ℕ :=
  (max 1 (messageLength / 50), max 5 (messageLength / 10), max 0 (messageLength / 20))

/-- Change-size resolution for the commit at index `i`
(src/lib/github-analysis.ts lines 179-204): only the first 50 commits
attempt the per-commit detail fetch; a failed fetch (`none`) or an index
past the budget falls back to the estimation. -/
def resolveStats (fetch : String → Option CommitDetails) (i : ℕ) (c : RawCommit) :
    ℕ × ℕ × ℕ :=
  if i < 50 then
    match fetch c.sha with
    | some d => (d.files.getD 0, d.additions.getD 0, d.deletions.getD 0)
    | none => estimateStats c.message.length
  else
    estimateStats c.message.length

/-- The per-commit body of the analysis loop (src/lib/github-analysis.ts
lines 168-222): classify, resolve change sizes, score, and build the
`CommitAnalysis` record, defaulting the date to the current time `now`. -/
noncomputable def processCommit (fetch : String → Option CommitDetails) (now : String)
    (i : ℕ) (c : RawCommit) : CommitAnalysis :=
  let cat := categorizeCommit c.message
  let stats := resolveStats fetch i c
  { hash := c.sha
    date := jsStrOr c.authorDate now
    author := authorOf c
    message := c.message
    filesChanged := stats.1
    insertions := stats.2.1
    deletions := stats.2.2
    complexity := calculateComplexity ⟨some stats.1, some stats.2.1, some stats.2.2⟩
    semanticCategory := cat.1
    businessImpact := cat.2 }

/-- Update of `authorStats[author] = { commits, lines }` in JavaScript-object
style: an existing key keeps its position, a new key is appended
(insertion order is what `Object.entries` later reproduces). -/
def updateAuthor (stats : List (String × ℕ × ℕ)) (a : String) (lines : ℕ) :
    List (String × ℕ × ℕ) :=
  match stats with
  | [] => [(a, 1, lines)]
  | (b, cnt, l) :: rest =>
      if b = a then (b, cnt + 1, l + lines) :: rest
      else (b, cnt, l) :: updateAuthor rest a lines

/-- Update of `businessFeatures[feature] = { commits, timeline }` in the same
JavaScript-object style, appending the commit sha and its timeline date. -/
def updateFeature (feats : List (String × List String × List String))
    (ft sha date : String) : List (String × List String × List String) :=
  match feats with
  | [] => [(ft, [sha], [date])]
  | (g, hs, ts) :: rest =>
      if g = ft then (g, hs ++ [sha], ts ++ [date]) :: rest
      else (g, hs, ts) :: updateFeature rest ft sha date

/-- The three accumulators of the analysis loop. -/
structure AnalysisState where
  commitAnalyses : List CommitAnalysis
  authorStats : List (String × ℕ × ℕ)
  businessFeatures : List (String × List String × List String)

/-- One iteration of the analysis loop over the commit at index `i`. -/
noncomputable def stepAnalysis (fetch : String → Option CommitDetails) (now : String)
    (i : ℕ) (c : RawCommit) (st : AnalysisState) : AnalysisState :=
  let a := processCommit fetch now i c
  { commitAnalyses := st.commitAnalyses ++ [a]
    authorStats := updateAuthor st.authorStats a.author (a.insertions + a.deletions)
    businessFeatures :=
      updateFeature st.businessFeatures (extractBusinessFeature c.message) c.sha a.date }

/-- The indexed `for (let i = 0; i < commits.length; i++)` loop. -/
noncomputable def analyzeLoop (fetch : String → Option CommitDetails) (now : String) :
    ℕ → List RawCommit → AnalysisState → AnalysisState
  | _, [], st => st
  | i, c :: cs, st => analyzeLoop fetch now (i + 1) cs (stepAnalysis fetch now i c st)

/-- The per-commit records produced by the loop, in loop order (specification
helper used to state order preservation). -/
noncomputable def processAll (fetch : String → Option CommitDetails) (now : String) :
    ℕ → List RawCommit → List CommitAnalysis
  | _, [] => []
  | i, c :: cs => processCommit fetch now i c :: processAll fetch now (i + 1) cs

/-- The `AnalysisResult` shape returned to consumers. -/
structure AnalysisResult where
  commits : List CommitAnalysis
  complexityTrends : List (String × ℝ)
  authorContributions : List (String × ℕ × ℕ)
  businessFeatures : List (String × List String × List String)

/-- Embedding of `analyzeRepositoryData` (src/lib/github-analysis.ts lines
150-262).  The source calls the mutating `commitAnalyses.reverse()` twice:
`complexityTrends` is mapped over the array after the first in-place
reversal, and the `commits` field receives the array after the second
in-place reversal (hence `reverse.reverse`, i.e. the original order). -/
noncomputable def analyzeRepositoryData (fetch : String → Option CommitDetails)
    (now : String) (commits : List RawCommit) : AnalysisResult :=
  let st := analyzeLoop fetch now 0 commits ⟨[], [], []⟩
  { commits := st.commitAnalyses.reverse.reverse
    complexityTrends := st.commitAnalyses.reverse.map fun a => (a.date, a.complexity)
    authorContributions := st.authorStats
    businessFeatures := st.businessFeatures }

/-- Embedding of the pagination loop of `fetchCompleteCommitHistory`
(src/lib/github-analysis.ts lines 119-144).  `pages p` is the external
list-commits call for page `p` (`none` models a thrown error, which the
source catches by ending pagination).  The loop runs while fewer than 1000
commits are accumulated; an empty page or a short page (fewer than
`perPage = 100` commits) also ends pagination. -/
def fetchLoop (pages : ℕ → Option (List RawCommit)) (page : ℕ) (acc : List RawCommit) :
    List RawCommit :=
  if acc.length < 1000 then
    match pages page with
    | none => acc
    | some commits =>
      if commits.length = 0 then acc
      else if commits.length < 100 then acc ++ commits
      else fetchLoop pages (page + 1) (acc ++ commits)
  else acc
termination_by 1000 - acc.length
decreasing_by
  simp only [List.length_append]
  omega

/-- Embedding of `fetchCompleteCommitHistory`: start at page 1 with an empty
accumulator. -/
def fetchCompleteCommitHistory (pages : ℕ → Option (List RawCommit)) : List RawCommit :=
  fetchLoop pages 1 []

/-- Embedding of `parseRepoId` (api/query route): split the id at every
hyphen; with at least two parts, the owner is the first part and the repo is
the remaining parts re-joined with hyphens.  JavaScript strings are taken as
their character lists here. -/
def parseRepoId (repoId : List Char) : Option (List Char × List Char) :=
  match repoId.splitOn '-' with
  | p0 :: p1 :: rest => some (p0, List.intercalate ['-'] (p1 :: rest))
  | _ => none

/-- The repository id built by the clone endpoint
(src/app/api/clone/route.ts line 43): `` `${owner}-${repo}` ``. -/
def makeRepoId (owner repo : List Char) : List Char :=
  owner ++ '-' :: repo
theorem firstMatch_default {α : Type} (msg : String) (rules : List (List String × α)) (d : α)
    (h : ∀ r ∈ rules, ∀ t ∈ r.1, jsIncludes msg t = false) :
    firstMatch msg rules d = d := by
  induction rules with
  | nil => rfl
  | cons r rest ih =>
      obtain ⟨ts, v⟩ := r
      have hts : ts.any (fun t => jsIncludes msg t) = false := by
        simp only [List.any_eq_false]
        intro t ht
        simpa using h (ts, v) (List.mem_cons_self _ _) t ht
      simp only [firstMatch, hts, Bool.false_eq_true, if_false]
      exact ih fun r hr t ht => h r (List.mem_cons_of_mem _ hr) t ht

/-- Claim C1: `categorizeCommit` agrees with the spec's eight-rule
first-match-wins priority list on every message; in particular
`"feat: fix typo"` classifies as `feature` (rule 1 beats rule 2), and a
message containing none of the trigger substrings yields
`(other, maintenance)`. -/
theorem categorizeCommit_matches_rules :
    (∀ msg, categorizeCommit msg = specCategorize msg)
    ∧ categorizeCommit "feat: fix typo" = ("feature", "enhancement")
    ∧ ∀ msg, (∀ r ∈ categorizeRules, ∀ t ∈ r.1, jsIncludes (jsToLower msg) t = false) →
        categorizeCommit msg = ("other", "maintenance") := by
  have hmain : ∀ msg, categorizeCommit msg = specCategorize msg := by
    intro msg
    simp [categorizeCommit, specCategorize, categorizeRules, firstMatch, or_assoc]
  refine ⟨hmain, by decide, ?_⟩
  intro msg h
  rw [hmain msg]
  exact firstMatch_default _ _ _ h

/-- Witness for C1: the trigger-free message `"hello"` concretely yields the
default pair. -/
theorem categorizeCommit_matches_rules_witness :
    categorizeCommit "hello" = ("other", "maintenance") :=
  categorizeCommit_matches_rules.2.2 "hello" (by decide)

/-- Claim C2: `extractBusinessFeature` agrees with the spec's nine-rule
first-match-wins list on every message; in particular a message containing
none of the trigger substrings yields `"Core Development"`. -/
theorem extractBusinessFeature_matches_rules :
    (∀ msg, extractBusinessFeature msg = specExtractFeature msg)
    ∧ ∀ msg, (∀ r ∈ featureRules, ∀ t ∈ r.1, jsIncludes (jsToLower msg) t = false) →
        extractBusinessFeature msg = "Core Development" := by
  have hmain : ∀ msg, extractBusinessFeature msg = specExtractFeature msg := by
    intro msg
    simp [extractBusinessFeature, specExtractFeature, featureRules, firstMatch, or_assoc]
  refine ⟨hmain, ?_⟩
  intro msg h
  rw [hmain msg]
  exact firstMatch_default _ _ _ h

/-- Witness for C2: the trigger-free message `"zzz"` concretely yields
`"Core Development"`. -/
theorem extractBusinessFeature_matches_rules_witness :
    extractBusinessFeature "zzz" = "Core Development" :=
  extractBusinessFeature_matches_rules.2 "zzz" (by decide)

theorem one_le_cast_add_one (n : ℕ) : (1 : ℝ) ≤ (n : ℝ) + 1 :=
  le_add_of_nonneg_left (Nat.cast_nonneg n)

theorem one_le_cast_add_cast_add_one (m n : ℕ) : (1 : ℝ) ≤ (m : ℝ) + (n : ℝ) + 1 :=
  le_add_of_nonneg_left (add_nonneg (Nat.cast_nonneg m) (Nat.cast_nonneg n))

/-- Claim C4: `calculateComplexity` computes exactly the spec formula
`min(100, ln(files + 1) * 10 + ln(insertions + deletions + 1) * 5)` with
missing signals treated as 0, and the result always lies in `[0, 100]`. -/
theorem calculateComplexity_formula :
    ∀ s : ComplexityStats,
      calculateComplexity s
          = min 100 (Real.log ((s.files.getD 0 : ℝ) + 1) * 10
              + Real.log ((s.insertions.getD 0 : ℝ) + (s.deletions.getD 0 : ℝ) + 1) * 5)
      ∧ 0 ≤ calculateComplexity s ∧ calculateComplexity s ≤ 100 := by
  intro s
  refine ⟨rfl, ?_, min_le_left _ _⟩
  refine le_min (by norm_num) ?_
  have h1 : 0 ≤ Real.log ((s.files.getD 0 : ℝ) + 1) :=
    Real.log_nonneg (one_le_cast_add_one _)
  have h2 : 0 ≤ Real.log ((s.insertions.getD 0 : ℝ) + (s.deletions.getD 0 : ℝ) + 1) :=
    Real.log_nonneg (one_le_cast_add_cast_add_one _ _)
  have := add_nonneg (mul_nonneg h1 (by norm_num : (0:ℝ) ≤ 10))
    (mul_nonneg h2 (by norm_num : (0:ℝ) ≤ 5))
  simpa [calculateComplexity] using this

theorem score_mono_aux {f f' i i' d d' : ℕ} (hf : f ≤ f') (hid : i + d ≤ i' + d') :
    score f i d ≤ score f' i' d' := by
  unfold score calculateComplexity
  simp only [Option.getD_some]
  refine min_le_min le_rfl (add_le_add ?_ ?_)
  · refine mul_le_mul_of_nonneg_right ?_ (by norm_num)
    refine Real.log_le_log (by positivity) ?_
    have : (f : ℝ) ≤ (f' : ℝ) := Nat.cast_le.mpr hf
    linarith
  · refine mul_le_mul_of_nonneg_right ?_ (by norm_num)
    refine Real.log_le_log (by positivity) ?_
    have h : ((i + d : ℕ) : ℝ) ≤ ((i' + d' : ℕ) : ℝ) := Nat.cast_le.mpr hid
    push_cast at h
    linarith

/-- Claim C5: the scorer satisfies `score(0,0,0) = 0`, is monotonically
non-decreasing in each of its three arguments separately, and is bounded
above by 100. -/
theorem score_monotone_bounded :
    score 0 0 0 = 0
    ∧ (∀ f f' i d, f ≤ f' → score f i d ≤ score f' i d)
    ∧ (∀ f i i' d, i ≤ i' → score f i d ≤ score f i' d)
    ∧ (∀ f i d d', d ≤ d' → score f i d ≤ score f i d')
    ∧ ∀ f i d, score f i d ≤ 100 := by
  refine ⟨?_, ?_, ?_, ?_, ?_⟩
  · unfold score calculateComplexity
    norm_num
  · exact fun f f' i d hf => score_mono_aux hf le_rfl
  · exact fun f i i' d hi => score_mono_aux le_rfl (by omega)
  · exact fun f i d d' hd => score_mono_aux le_rfl (by omega)
  · intro f i d
    exact min_le_left _ _

/-- Witness for C5: a concrete instance of monotonicity in the first
argument, `score 0 2 3 ≤ score 1 2 3`. -/
theorem score_monotone_bounded_witness : score 0 2 3 ≤ score 1 2 3 :=
  score_monotone_bounded.2.1 0 1 2 3 (by decide)

theorem processAll_length (fetch : String → Option CommitDetails) (now : String) :
    ∀ (cs : List RawCommit) (i : ℕ), (processAll fetch now i cs).length = cs.length := by
  intro cs
  induction cs with
  | nil => intro i; rfl
  | cons c cs ih => intro i; simp [processAll, ih]

theorem analyzeLoop_commitAnalyses (fetch : String → Option CommitDetails) (now : String) :
    ∀ (cs : List RawCommit) (i : ℕ) (st : AnalysisState),
      (analyzeLoop fetch now i cs st).commitAnalyses
        = st.commitAnalyses ++ processAll fetch now i cs := by
  intro cs
  induction cs with
  | nil => intro i st; simp [analyzeLoop, processAll]
  | cons c cs ih =>
      intro i st
      simp [analyzeLoop, processAll, ih, stepAnalysis]

theorem analyzeRepositoryData_commits (fetch : String → Option CommitDetails)
    (now : String) (cs : List RawCommit) :
    (analyzeRepositoryData fetch now cs).commits = processAll fetch now 0 cs := by
  simp [analyzeRepositoryData, analyzeLoop_commitAnalyses]

/-- Claim C3 counterexample: on a concrete two-commit batch (in GitHub fetch
order, newest first) the timestamps of `complexityTrends` do NOT match the
timestamps of `commits` position by position — the two sequences are in
opposite orders, because the source reverses the array in place a second
time before storing `commits`. -/
theorem complexityTrend_not_aligned_counterexample :
    (analyzeRepositoryData (fun _ => none) "NOW"
        [⟨"sha1", "m1", some "Alice", some "2021-06-01T00:00:00Z", none⟩,
         ⟨"sha2", "m2", some "Bob", some "2020-06-01T00:00:00Z", none⟩]).complexityTrends.map
        Prod.fst
      ≠ ((analyzeRepositoryData (fun _ => none) "NOW"
        [⟨"sha1", "m1", some "Alice", some "2021-06-01T00:00:00Z", none⟩,
         ⟨"sha2", "m2", some "Bob", some "2020-06-01T00:00:00Z", none⟩]).commits.map
        CommitAnalysis.date) := by
  simp [analyzeRepositoryData, analyzeLoop, stepAnalysis, processCommit, jsStrOr]

/-- Claim C3 amended: `commits` preserves the exact input order of the batch
(one analyzed record per input commit, newest first for the GitHub source),
and `complexityTrends` is the REVERSE of the final `commits` sequence, i.e.
`complexityTrends[i]` carries the timestamp and complexity of
`commits[n-1-i]`. -/
theorem analyze_order_and_trend :
    ∀ (fetch : String → Option CommitDetails) (now : String) (cs : List RawCommit),
      (analyzeRepositoryData fetch now cs).commits = processAll fetch now 0 cs
      ∧ (analyzeRepositoryData fetch now cs).complexityTrends
          = ((analyzeRepositoryData fetch now cs).commits.reverse).map
              fun a => (a.date, a.complexity) := by
  intro fetch now cs
  refine ⟨analyzeRepositoryData_commits fetch now cs, ?_⟩
  simp [analyzeRepositoryData, analyzeLoop_commitAnalyses]

/-- Claim C6: for the commit at position `i`, an exact-stats fetch is used
when `i < 50` and it succeeds; on fetch failure, or unconditionally when
`i ≥ 50`, the change-size signals come from the message-length estimation
`(max(1, ⌊len/50⌋), max(5, ⌊len/10⌋), max(0, ⌊len/20⌋))`; and a fetch
failure never aborts the run — every supplied commit is processed. -/
theorem normalizer_detail_budget :
    (∀ (fetch : String → Option CommitDetails) (now : String) (i : ℕ) (c : RawCommit)
        (d : CommitDetails), i < 50 → fetch c.sha = some d →
        (processCommit fetch now i c).filesChanged = d.files.getD 0
        ∧ (processCommit fetch now i c).insertions = d.additions.getD 0
        ∧ (processCommit fetch now i c).deletions = d.deletions.getD 0)
    ∧ (∀ (fetch : String → Option CommitDetails) (now : String) (i : ℕ) (c : RawCommit),
        50 ≤ i ∨ fetch c.sha = none →
        (processCommit fetch now i c).filesChanged = max 1 (c.message.length / 50)
        ∧ (processCommit fetch now i c).insertions = max 5 (c.message.length / 10)
        ∧ (processCommit fetch now i c).deletions = max 0 (c.message.length / 20))
    ∧ ∀ (fetch : String → Option CommitDetails) (now : String) (cs : List RawCommit),
        (analyzeRepositoryData fetch now cs).commits.length = cs.length := by
  refine ⟨?_, ?_, ?_⟩
  · intro fetch now i c d hi hf
    refine ⟨?_, ?_, ?_⟩ <;> simp [processCommit, resolveStats, hi, hf]
  · intro fetch now i c h
    rcases h with hi | hf
    · refine ⟨?_, ?_, ?_⟩ <;>
        simp [processCommit, resolveStats, Nat.not_lt.mpr hi, estimateStats]
    · by_cases hi : i < 50 <;>
        refine ⟨?_, ?_, ?_⟩ <;>
        simp [processCommit, resolveStats, hi, hf, estimateStats]
  · intro fetch now cs
    rw [analyzeRepositoryData_commits, processAll_length]

/-- Witness for C6: at index 49 the (successful) fetch result is used; at
index 50 the estimation is used even though the same fetch would succeed. -/
theorem normalizer_detail_budget_witness :
    (processCommit (fun _ => some ⟨some 3, some 10, some 2⟩) "T0" 49
        ⟨"s", "hello world", some "A", some "D", none⟩).filesChanged
      = (some 3).getD 0
    ∧ (processCommit (fun _ => some ⟨some 3, some 10, some 2⟩) "T0" 50
        ⟨"s", "hello world", some "A", some "D", none⟩).insertions
      = max 5 ((⟨"s", "hello world", some "A", some "D", none⟩ : RawCommit).message.length / 10) :=
  ⟨(normalizer_detail_budget.1 (fun _ => some ⟨some 3, some 10, some 2⟩) "T0" 49
      ⟨"s", "hello world", some "A", some "D", none⟩ ⟨some 3, some 10, some 2⟩
      (by decide) rfl).1,
   (normalizer_detail_budget.2.1 (fun _ => some ⟨some 3, some 10, some 2⟩) "T0" 50
      ⟨"s", "hello world", some "A", some "D", none⟩ (Or.inl (by decide))).2.1⟩

theorem updateAuthor_count_sum (s : List (String × ℕ × ℕ)) (a : String) (v : ℕ) :
    ((updateAuthor s a v).map fun e => e.2.1).sum = ((s.map fun e => e.2.1).sum) + 1 := by
  induction s with
  | nil => simp [updateAuthor]
  | cons e rest ih =>
      obtain ⟨b, cnt, l⟩ := e
      by_cases hb : b = a <;> simp [updateAuthor, hb, ih] <;> omega

theorem updateAuthor_keys (s : List (String × ℕ × ℕ)) (a : String) (v : ℕ) :
    (updateAuthor s a v).map Prod.fst
      = if a ∈ s.map Prod.fst then s.map Prod.fst else s.map Prod.fst ++ [a] := by
  induction s with
  | nil => simp [updateAuthor]
  | cons e rest ih =>
      obtain ⟨b, cnt, l⟩ := e
      by_cases hb : b = a
      · simp [updateAuthor, hb]
      · simp only [updateAuthor, if_neg hb, List.map_cons, ih, List.mem_cons]
        by_cases ha : a ∈ rest.map Prod.fst
        · simp [ha, Ne.symm hb]
        · simp [ha, Ne.symm hb]

theorem updateFeature_hash_sum (s : List (String × List String × List String))
    (ft sha date : String) :
    ((updateFeature s ft sha date).map fun e => e.2.1.length).sum
      = ((s.map fun e => e.2.1.length).sum) + 1 := by
  induction s with
  | nil => simp [updateFeature]
  | cons e rest ih =>
      obtain ⟨g, hs, ts⟩ := e
      by_cases hg : g = ft <;> simp [updateFeature, hg, ih] <;> omega

theorem updateFeature_keys (s : List (String × List String × List String))
    (ft sha date : String) :
    (updateFeature s ft sha date).map Prod.fst
      = if ft ∈ s.map Prod.fst then s.map Prod.fst else s.map Prod.fst ++ [ft] := by
  induction s with
  | nil => simp [updateFeature]
  | cons e rest ih =>
      obtain ⟨g, hs, ts⟩ := e
      by_cases hg : g = ft
      · simp [updateFeature, hg]
      · simp only [updateFeature, if_neg hg, List.map_cons, ih, List.mem_cons]
        by_cases hf : ft ∈ rest.map Prod.fst
        · simp [hf, Ne.symm hg]
        · simp [hf, Ne.symm hg]

theorem keys_step_nodup {ks : List String} {a : String}
    (h : ks.Nodup) : (if a ∈ ks then ks else ks ++ [a]).Nodup := by
  by_cases ha : a ∈ ks
  · simpa [ha]
  · simp [ha, List.nodup_append, h, List.disjoint_singleton, ha]

theorem analyzeLoop_authorStats_sum (fetch : String → Option CommitDetails) (now : String) :
    ∀ (cs : List RawCommit) (i : ℕ) (st : AnalysisState),
      ((analyzeLoop fetch now i cs st).authorStats.map fun e => e.2.1).sum
        = ((st.authorStats.map fun e => e.2.1).sum) + cs.length := by
  intro cs
  induction cs with
  | nil => intro i st; simp [analyzeLoop]
  | cons c cs ih =>
      intro i st
      simp [analyzeLoop, ih, stepAnalysis, updateAuthor_count_sum]
      omega

theorem analyzeLoop_authorStats_keys_nodup (fetch : String → Option CommitDetails)
    (now : String) :
    ∀ (cs : List RawCommit) (i : ℕ) (st : AnalysisState),
      (st.authorStats.map Prod.fst).Nodup →
      ((analyzeLoop fetch now i cs st).authorStats.map Prod.fst).Nodup := by
  intro cs
  induction cs with
  | nil => intro i st h; simpa [analyzeLoop] using h
  | cons c cs ih =>
      intro i st h
      refine ih (i + 1) _ ?_
      simp only [stepAnalysis, updateAuthor_keys]
      exact keys_step_nodup h

theorem analyzeLoop_authorStats_keys_mem (fetch : String → Option CommitDetails)
    (now : String) :
    ∀ (cs : List RawCommit) (i : ℕ) (st : AnalysisState) (x : String),
      (x ∈ (analyzeLoop fetch now i cs st).authorStats.map Prod.fst
        ↔ x ∈ st.authorStats.map Prod.fst ∨ x ∈ cs.map authorOf) := by
  intro cs
  induction cs with
  | nil => intro i st x; simp [analyzeLoop]
  | cons c cs ih =>
      intro i st x
      rw [analyzeLoop, ih]
      simp only [stepAnalysis, updateAuthor_keys, List.map_cons, List.mem_cons]
      have hauth : (processCommit fetch now i c).author = authorOf c := rfl
      rw [hauth]
      by_cases hx : authorOf c ∈ st.authorStats.map Prod.fst
      · simp only [if_pos hx]
        constructor
        · rintro (h | h)
          · exact Or.inl h
          · exact Or.inr (Or.inr h)
        · rintro (h | h | h)
          · exact Or.inl h
          · exact Or.inl (h ▸ hx)
          · exact Or.inr h
      · simp only [if_neg hx, List.mem_append, List.mem_singleton]
        tauto

theorem analyzeLoop_businessFeatures_sum (fetch : String → Option CommitDetails)
    (now : String) :
    ∀ (cs : List RawCommit) (i : ℕ) (st : AnalysisState),
      ((analyzeLoop fetch now i cs st).businessFeatures.map fun e => e.2.1.length).sum
        = ((st.businessFeatures.map fun e => e.2.1.length).sum) + cs.length := by
  intro cs
  induction cs with
  | nil => intro i st; simp [analyzeLoop]
  | cons c cs ih =>
      intro i st
      simp [analyzeLoop, ih, stepAnalysis, updateFeature_hash_sum]
      omega

theorem analyzeLoop_businessFeatures_keys_nodup (fetch : String → Option CommitDetails)
    (now : String) :
    ∀ (cs : List RawCommit) (i : ℕ) (st : AnalysisState),
      (st.businessFeatures.map Prod.fst).Nodup →
      ((analyzeLoop fetch now i cs st).businessFeatures.map Prod.fst).Nodup := by
  intro cs
  induction cs with
  | nil => intro i st h; simpa [analyzeLoop] using h
  | cons c cs ih =>
      intro i st h
      refine ih (i + 1) _ ?_
      simp only [stepAnalysis, updateFeature_keys]
      exact keys_step_nodup h

theorem analyzeLoop_businessFeatures_keys_mem (fetch : String → Option CommitDetails)
    (now : String) :
    ∀ (cs : List RawCommit) (i : ℕ) (st : AnalysisState) (x : String),
      (x ∈ (analyzeLoop fetch now i cs st).businessFeatures.map Prod.fst
        ↔ x ∈ st.businessFeatures.map Prod.fst
          ∨ x ∈ cs.map fun c => extractBusinessFeature c.message) := by
  intro cs
  induction cs with
  | nil => intro i st x; simp [analyzeLoop]
  | cons c cs ih =>
      intro i st x
      rw [analyzeLoop, ih]
      simp only [stepAnalysis, updateFeature_keys, List.map_cons, List.mem_cons]
      by_cases hx : extractBusinessFeature c.message ∈ st.businessFeatures.map Prod.fst
      · simp only [if_pos hx]
        constructor
        · rintro (h | h)
          · exact Or.inl h
          · exact Or.inr (Or.inr h)
        · rintro (h | h | h)
          · exact Or.inl h
          · exact Or.inl (h ▸ hx)
          · exact Or.inr h
      · simp only [if_neg hx, List.mem_append, List.mem_singleton]
        tauto

/-- Claim C7: in the aggregate produced from any batch, the author table has
exactly one entry per distinct resolved author of the input and the feature
table exactly one entry per distinct feature; author commit counts sum to
the number of input commits, and the per-feature hash lists partition the
input (their lengths also sum to the number of input commits). -/
theorem aggregator_table_counts :
    ∀ (fetch : String → Option CommitDetails) (now : String) (cs : List RawCommit),
      ((analyzeRepositoryData fetch now cs).authorContributions.map Prod.fst).Nodup
      ∧ (∀ a, a ∈ (analyzeRepositoryData fetch now cs).authorContributions.map Prod.fst
            ↔ a ∈ cs.map authorOf)
      ∧ (((analyzeRepositoryData fetch now cs).authorContributions.map fun e => e.2.1).sum
          = cs.length)
      ∧ ((analyzeRepositoryData fetch now cs).businessFeatures.map Prod.fst).Nodup
      ∧ (∀ ft, ft ∈ (analyzeRepositoryData fetch now cs).businessFeatures.map Prod.fst
            ↔ ft ∈ cs.map fun c => extractBusinessFeature c.message)
      ∧ (((analyzeRepositoryData fetch now cs).businessFeatures.map fun e => e.2.1.length).sum
          = cs.length) := by
  intro fetch now cs
  refine ⟨?_, ?_, ?_, ?_, ?_, ?_⟩
  · exact analyzeLoop_authorStats_keys_nodup fetch now cs 0 ⟨[], [], []⟩ (by simp)
  · intro a
    have := analyzeLoop_authorStats_keys_mem fetch now cs 0 ⟨[], [], []⟩ a
    simpa [analyzeRepositoryData] using this
  · have := analyzeLoop_authorStats_sum fetch now cs 0 ⟨[], [], []⟩
    simpa [analyzeRepositoryData] using this
  · exact analyzeLoop_businessFeatures_keys_nodup fetch now cs 0 ⟨[], [], []⟩ (by simp)
  · intro ft
    have := analyzeLoop_businessFeatures_keys_mem fetch now cs 0 ⟨[], [], []⟩ ft
    simpa [analyzeRepositoryData] using this
  · have := analyzeLoop_businessFeatures_sum fetch now cs 0 ⟨[], [], []⟩
    simpa [analyzeRepositoryData] using this

theorem fetchLoop_length_le (n : ℕ) :
    ∀ (pages : ℕ → Option (List RawCommit)) (page : ℕ) (acc : List RawCommit),
      1000 - acc.length ≤ n →
      (∀ p l, pages p = some l → l.length ≤ 100) →
      acc.length % 100 = 0 → acc.length ≤ 1000 →
      (fetchLoop pages page acc).length ≤ 1000 := by
  induction n with
  | zero =>
      intro pages page acc h1 h2 h3 h4
      rw [fetchLoop]
      have hge : ¬ acc.length < 1000 := by omega
      simp [hge]
      omega
  | succ n ih =>
      intro pages page acc h1 h2 h3 h4
      rw [fetchLoop]
      by_cases hlt : acc.length < 1000
      · simp only [if_pos hlt]
        cases hp : pages page with
        | none => exact h4
        | some commits =>
            have hc : commits.length ≤ 100 := h2 _ _ hp
            by_cases hz : commits.length = 0
            · simp only [if_pos hz]
              omega
            · simp only [if_neg hz]
              by_cases hs : commits.length < 100
              · simp only [if_pos hs, List.length_append]
                omega
              · simp only [if_neg hs]
                refine ih pages (page + 1) (acc ++ commits) ?_ h2 ?_ ?_ <;>
                  simp only [List.length_append] <;> omega
      · simp only [if_neg hlt]
        omega

/-- Claim C8: under the GitHub per-page contract (each successful page
response carries at most `perPage = 100` commits), the pagination driver
never accumulates more than the 1000-commit ceiling, no matter how many
pages are available. -/
theorem fetchCompleteCommitHistory_capped :
    ∀ (pages : ℕ → Option (List RawCommit)),
      (∀ p l, pages p = some l → l.length ≤ 100) →
      (fetchCompleteCommitHistory pages).length ≤ 1000 := by
  intro pages h
  exact fetchLoop_length_le 1000 pages 1 [] (by simp) h (by simp) (by simp)

/-- Witness for C8: with a source whose every page is empty, the run stays
within the ceiling. -/
theorem fetchCompleteCommitHistory_capped_witness :
    (fetchCompleteCommitHistory (fun _ => some [])).length ≤ 1000 :=
  fetchCompleteCommitHistory_capped (fun _ => some [])
    (fun p l h => by injection h with h; simp [← h])

/-- Claim C9 counterexample: page 1 succeeds with a full page of 100 commits
and page 2 fails; the run does NOT fail as a whole — it returns a result
built from only the pages fetched so far (exactly the 100 commits of
page 1). -/
theorem fetch_partial_result_counterexample :
    fetchCompleteCommitHistory
        (fun p => if p = 1 then some (List.replicate 100 ⟨"s", "m", none, none, none⟩)
          else none)
      = List.replicate 100 ⟨"s", "m", none, none, none⟩
    ∧ (fun p : ℕ => if p = 1 then
          some (List.replicate 100 (⟨"s", "m", none, none, none⟩ : RawCommit))
        else none) 2 = none := by
  constructor
  · rw [fetchCompleteCommitHistory, fetchLoop]
    norm_num
    rw [fetchLoop]
    norm_num
  · norm_num

/-- Claim C9 amended: a page-fetch failure ends pagination and the driver
returns the commits accumulated so far (a partial history) instead of
failing the whole run; the analysis fold itself always completes over all
supplied commits, even when every detail fetch fails. -/
theorem fetch_error_ends_pagination :
    (∀ (pages : ℕ → Option (List RawCommit)) (page : ℕ) (acc : List RawCommit),
        acc.length < 1000 → pages page = none → fetchLoop pages page acc = acc)
    ∧ ∀ (now : String) (cs : List RawCommit),
        (analyzeRepositoryData (fun _ => none) now cs).commits.length = cs.length := by
  constructor
  · intro pages page acc h1 h2
    rw [fetchLoop]
    simp [h1, h2]
  · intro now cs
    rw [analyzeRepositoryData_commits, processAll_length]

/-- Witness for C9's amended statement: an immediately failing source yields
the empty accumulator back, and the fold over an empty batch completes. -/
theorem fetch_error_ends_pagination_witness :
    fetchLoop (fun _ => none) 1 [] = []
    ∧ (analyzeRepositoryData (fun _ => none) "T1"
        [⟨"s1", "msg", some "A", some "D", none⟩]).commits.length
      = [(⟨"s1", "msg", some "A", some "D", none⟩ : RawCommit)].length :=
  ⟨fetch_error_ends_pagination.1 (fun _ => none) 1 [] (by decide) rfl,
   fetch_error_ends_pagination.2 "T1" [⟨"s1", "msg", some "A", some "D", none⟩]⟩

/-- Claim C10: the id built by the clone endpoint as `owner-repo` is exactly
recovered by `parseRepoId` whenever the owner contains no hyphen (even when
the repo name itself contains hyphens), and the hyphen-free precondition on
the owner is necessary. -/
theorem parseRepoId_round_trip :
    (∀ owner repo : List Char, '-' ∉ owner →
        parseRepoId (makeRepoId owner repo) = some (owner, repo))
    ∧ parseRepoId (makeRepoId ['a', '-', 'b'] ['c']) ≠ some (['a', '-', 'b'], ['c']) := by
  constructor
  · intro owner repo h
    have hsplit : (owner ++ '-' :: repo).splitOn '-' = owner :: repo.splitOn '-' := by
      have hfirst := List.splitOnP_first (fun x => x == '-') owner
        (fun x hx => by simp only [beq_iff_eq]; intro he; exact h (he ▸ hx))
        '-' (by simp) repo
      simpa [List.splitOn] using hfirst
    obtain ⟨hd, tl, heq⟩ : ∃ hd tl, repo.splitOn '-' = hd :: tl := by
      cases hr : repo.splitOn '-' with
      | nil =>
          exact absurd hr
            (by simpa [List.splitOn] using List.splitOnP_ne_nil (fun x => x == '-') repo)
      | cons hd tl => exact ⟨hd, tl, rfl⟩
    simp only [parseRepoId, makeRepoId, hsplit, heq]
    rw [← heq, List.intercalate_splitOn]
  · decide

/-- Witness for C10: the hyphen-free owner `"a"` with a hyphenated repo
`"b-c"` round-trips exactly. -/
theorem parseRepoId_round_trip_witness :
    parseRepoId (makeRepoId ['a'] ['b', '-', 'c']) = some (['a'], ['b', '-', 'c']) :=
  parseRepoId_round_trip.1 ['a'] ['b', '-', 'c'] (by decide)
